import Mathlib

/-!
Shallow embedding of the OM parallelization fabric and its configuration
accessor, translated from the repository sources:

* `src/om/parallelization_layer/mpi.py` — the MPI master/worker control
  plane (`MpiParallelization.start`, `MpiParallelization.shutdown`);
* `src/om/data_retrieval_layer/data_event_handlers_psana.py` — the offline
  psana event partitioning (`_psana_offline_event_generator`);
* `src/om/utils/parameters.py` — the typed configuration accessor
  (`MonitorParams.get_param`).

Python dictionaries are modelled as association lists, machine integers as
`Nat`/`Int`, fallible calls as `Option`/`Except`, and the event-driven
loops as explicit state-passing functions over lists of incoming messages.
-/

namespace OmSpec

/-! ### Values and message payloads

A subset of the Python values that can appear in an OM message payload or
in the YAML configuration tree.  `vFloat` and `vList` carry an opaque tag
because their numeric/element content never matters to the control plane.
-/

inductive PyVal where
  | vNone
  | vBool (b : Bool)
  | vInt (n : Int)
  | vFloat (tag : Nat)
  | vStr (s : String)
  | vBytes (s : String)
  | vList (tag : Nat)
  deriving DecidableEq

/-- A worker→aggregator MPI message: the tuple `(payload, rank)` that the
processing nodes send with tag 0.  The payload dictionary is an
association list. -/
structure Msg where
  payload : List (String × PyVal)
  srcRank : Nat
  deriving DecidableEq

/-- The keys of a payload dictionary (`received_data[0].keys()`). -/
def payloadKeys (p : List (String × PyVal)) : List String :=
  p.map Prod.fst

/-- Embeds the test on line 121 of `mpi.py`:
`"end" in received_data[0].keys()`. -/
def isEndMessage (m : Msg) : Bool :=
  (payloadKeys m.payload).contains "end"

/-- Number of END-classified messages in a list. -/
def countEnds (msgs : List Msg) : Nat :=
  msgs.countP isEndMessage

/-- The messages of a list that are not END-classified (the ones routed to
`collect_data`). -/
def dataMsgs (msgs : List Msg) : List Msg :=
  msgs.filter (fun m => !isEndMessage m)

/-! ### The collecting node (rank 0) receive loop

State of the aggregator in `MpiParallelization.start`, lines 116-153:
`_num_nomore` and `_num_collected_events` are the instance counters; the
remaining fields record the externally visible actions of the loop
(`collect_data` calls, `end_processing_on_collecting_node` calls,
`MPI.Finalize`, and the `exit` status). -/
structure AggState where
  numNomore : Nat
  numCollectedEvents : Nat
  collected : List Msg
  endProcessingCalls : Nat
  finalized : Bool
  exitCode : Option Nat
  deriving DecidableEq

def initialAggState : AggState :=
  { numNomore := 0
    numCollectedEvents := 0
    collected := []
    endProcessingCalls := 0
    finalized := false
    exitCode := none }

/-- The collecting-node loop of `MpiParallelization.start` (lines 116-145),
run against a queue of incoming messages.  Returns the final state and the
unconsumed suffix of the queue.  On an END-classified message the
`_num_nomore` counter is incremented; when it reaches `mpi_size - 1` the
node calls `end_processing_on_collecting_node` once, finalizes MPI and
exits with status 0.  Any other message is passed to `collect_data` and
bumps `_num_collected_events`. -/
def aggRun (mpiSize : Nat) : AggState → List Msg → AggState × List Msg
  | s, [] => (s, [])
  | s, m :: rest =>
    if isEndMessage m then
      let s' := { s with numNomore := s.numNomore + 1 }
      if s'.numNomore = mpiSize - 1 then
        ({ s' with
            endProcessingCalls := s'.endProcessingCalls + 1
            finalized := true
            exitCode := some 0 }, rest)
      else
        aggRun mpiSize s' rest
    else
      aggRun mpiSize
        { s with
            collected := s.collected ++ [m]
            numCollectedEvents := s.numCollectedEvents + 1 } rest

/-! Auxiliary facts about the aggregator loop. -/

theorem aggRun_flush (mpiSize : Nat) :
    ∀ (msgs : List Msg) (s : AggState), s.numNomore < mpiSize - 1 →
      ((aggRun mpiSize s msgs).1.endProcessingCalls
          = s.endProcessingCalls
            + (if mpiSize - 1 ≤ s.numNomore + countEnds msgs then 1 else 0))
      ∧ ((aggRun mpiSize s msgs).1.finalized
          = (if mpiSize - 1 ≤ s.numNomore + countEnds msgs then true
             else s.finalized))
      ∧ ((aggRun mpiSize s msgs).1.exitCode
          = (if mpiSize - 1 ≤ s.numNomore + countEnds msgs then some 0
             else s.exitCode)) := by
  intro msgs
  induction msgs with
  | nil =>
    intro s hs
    have hlt : ¬ mpiSize - 1 ≤ s.numNomore + countEnds [] := by
      simp [countEnds]; omega
    simp [aggRun, hlt]
  | cons m rest ih =>
    intro s hs
    by_cases hend : isEndMessage m
    · have hcount : countEnds (m :: rest) = countEnds rest + 1 := by
        simp [countEnds, List.countP_cons, hend]
      by_cases hhit : s.numNomore + 1 = mpiSize - 1
      · have hc : mpiSize - 1 ≤ s.numNomore + countEnds (m :: rest) := by
          omega
        simp [aggRun, hend, hhit, hc]
      · have hlt : s.numNomore + 1 < mpiSize - 1 := by omega
        have := ih { s with numNomore := s.numNomore + 1 } (by simpa using hlt)
        simpa [aggRun, hend, hhit, hcount, Nat.add_assoc, Nat.add_comm 1,
          Nat.add_left_comm] using this
    · have hcount : countEnds (m :: rest) = countEnds rest := by
        simp [countEnds, List.countP_cons, hend]
      have := ih
        { s with
            collected := s.collected ++ [m]
            numCollectedEvents := s.numCollectedEvents + 1 } (by simpa using hs)
      simpa [aggRun, hend, hcount] using this

theorem aggRun_numNomore (mpiSize : Nat) :
    ∀ (msgs : List Msg) (s : AggState), s.numNomore < mpiSize - 1 →
      (aggRun mpiSize s msgs).1.numNomore
        = min (s.numNomore + countEnds msgs) (mpiSize - 1) := by
  intro msgs
  induction msgs with
  | nil =>
    intro s hs
    simp [aggRun, countEnds]
    omega
  | cons m rest ih =>
    intro s hs
    by_cases hend : isEndMessage m
    · have hcount : countEnds (m :: rest) = countEnds rest + 1 := by
        simp [countEnds, List.countP_cons, hend]
      by_cases hhit : s.numNomore + 1 = mpiSize - 1
      · simp [aggRun, hend, hhit, hcount]
        omega
      · have hlt : s.numNomore + 1 < mpiSize - 1 := by omega
        have := ih { s with numNomore := s.numNomore + 1 } (by simpa using hlt)
        simp [aggRun, hend, hhit, hcount] at this ⊢
        omega
    · have hcount : countEnds (m :: rest) = countEnds rest := by
        simp [countEnds, List.countP_cons, hend]
      have := ih
        { s with
            collected := s.collected ++ [m]
            numCollectedEvents := s.numCollectedEvents + 1 } (by simpa using hs)
      simpa [aggRun, hend, hcount] using this

theorem aggRun_consumed (mpiSize : Nat) :
    ∀ (msgs : List Msg) (s : AggState), s.numNomore < mpiSize - 1 →
      ∃ pre, msgs = pre ++ (aggRun mpiSize s msgs).2
        ∧ (aggRun mpiSize s msgs).1.numNomore = s.numNomore + countEnds pre
        ∧ (aggRun mpiSize s msgs).1.collected = s.collected ++ dataMsgs pre
        ∧ (aggRun mpiSize s msgs).1.numCollectedEvents
            = s.numCollectedEvents + (dataMsgs pre).length := by
  intro msgs
  induction msgs with
  | nil =>
    intro s hs
    exact ⟨[], by simp [aggRun, countEnds, dataMsgs]⟩
  | cons m rest ih =>
    intro s hs
    by_cases hend : isEndMessage m
    · by_cases hhit : s.numNomore + 1 = mpiSize - 1
      · refine ⟨[m], ?_⟩
        simp [aggRun, hend, hhit, countEnds, dataMsgs, List.countP_cons]
      · have hlt : s.numNomore + 1 < mpiSize - 1 := by omega
        obtain ⟨pre, hpre, hn, hc, hk⟩ :=
          ih { s with numNomore := s.numNomore + 1 } (by simpa using hlt)
        have hstep : aggRun mpiSize s (m :: rest)
            = aggRun mpiSize { s with numNomore := s.numNomore + 1 } rest := by
          simp [aggRun, hend, hhit]
        have hn' : (aggRun mpiSize { s with numNomore := s.numNomore + 1 }
            rest).1.numNomore = s.numNomore + 1 + countEnds pre := hn
        have hc' : (aggRun mpiSize { s with numNomore := s.numNomore + 1 }
            rest).1.collected = s.collected ++ dataMsgs pre := hc
        have hk' : (aggRun mpiSize { s with numNomore := s.numNomore + 1 }
            rest).1.numCollectedEvents
            = s.numCollectedEvents + (dataMsgs pre).length := hk
        have hce : countEnds (m :: pre) = countEnds pre + 1 := by
          simp [countEnds, List.countP_cons, hend]
        have hdm : dataMsgs (m :: pre) = dataMsgs pre := by
          simp [dataMsgs, List.filter_cons, hend]
        refine ⟨m :: pre, ?_, ?_, ?_, ?_⟩
        · rw [hstep]
          simpa using hpre
        · rw [hstep, hce]
          omega
        · rw [hstep, hdm]
          exact hc'
        · rw [hstep, hdm]
          exact hk'
    · obtain ⟨pre, hpre, hn, hc, hk⟩ :=
        ih { s with
              collected := s.collected ++ [m]
              numCollectedEvents := s.numCollectedEvents + 1 }
          (by simpa using hs)
      have hstep : aggRun mpiSize s (m :: rest)
          = aggRun mpiSize
              { s with
                  collected := s.collected ++ [m]
                  numCollectedEvents := s.numCollectedEvents + 1 } rest := by
        simp [aggRun, hend]
      have hn' : (aggRun mpiSize
          { s with
              collected := s.collected ++ [m]
              numCollectedEvents := s.numCollectedEvents + 1 }
          rest).1.numNomore = s.numNomore + countEnds pre := hn
      have hc' : (aggRun mpiSize
          { s with
              collected := s.collected ++ [m]
              numCollectedEvents := s.numCollectedEvents + 1 }
          rest).1.collected = (s.collected ++ [m]) ++ dataMsgs pre := hc
      have hk' : (aggRun mpiSize
          { s with
              collected := s.collected ++ [m]
              numCollectedEvents := s.numCollectedEvents + 1 }
          rest).1.numCollectedEvents
          = s.numCollectedEvents + 1 + (dataMsgs pre).length := hk
      have hce : countEnds (m :: pre) = countEnds pre := by
        simp [countEnds, List.countP_cons, hend]
      have hdm : dataMsgs (m :: pre) = m :: dataMsgs pre := by
        simp [dataMsgs, List.filter_cons, hend]
      refine ⟨m :: pre, ?_, ?_, ?_, ?_⟩
      · rw [hstep]
        simpa using hpre
      · rw [hstep, hce]
        exact hn'
      · rw [hstep, hdm]
        simpa using hc'
      · rw [hstep, hdm]
        rw [hk']
        simp
        omega

/-- An END sentinel `({"end": True}, rank)` as sent by a processing node
(line 223 of `mpi.py`). -/
def endMsgFrom (r : Nat) : Msg :=
  { payload := [("end", PyVal.vBool true)], srcRank := r }

/-- **C1.** The aggregator (rank 0) calls the final aggregator flush
(`end_processing_on_collecting_node`) exactly once, and it does so if and
only if the count of END sentinel messages it has received equals the
number of workers (`pool_size - 1`); after the flush it tears down the
transport (`MPI.Finalize`) and exits with status 0. -/
theorem aggregator_termination_completeness (mpiSize : Nat) (hsize : 2 ≤ mpiSize)
    (msgs : List Msg) :
    ((aggRun mpiSize initialAggState msgs).1.endProcessingCalls ≤ 1)
    ∧ ((aggRun mpiSize initialAggState msgs).1.endProcessingCalls = 1
        ↔ (aggRun mpiSize initialAggState msgs).1.numNomore = mpiSize - 1)
    ∧ ((aggRun mpiSize initialAggState msgs).1.endProcessingCalls = 1
        → (aggRun mpiSize initialAggState msgs).1.finalized = true
          ∧ (aggRun mpiSize initialAggState msgs).1.exitCode = some 0)
    ∧ ((aggRun mpiSize initialAggState msgs).1.endProcessingCalls = 0
        → (aggRun mpiSize initialAggState msgs).1.finalized = false
          ∧ (aggRun mpiSize initialAggState msgs).1.exitCode = none) := by
  have h0 : initialAggState.numNomore < mpiSize - 1 := by
    simp only [initialAggState]
    omega
  obtain ⟨f1, f2, f3⟩ := aggRun_flush mpiSize msgs initialAggState h0
  have hnn := aggRun_numNomore mpiSize msgs initialAggState h0
  simp only [initialAggState, Nat.zero_add] at f1 f2 f3 hnn ⊢
  by_cases hc : mpiSize - 1 ≤ countEnds msgs
  · simp only [hc, if_true] at f1 f2 f3
    refine ⟨by omega, ?_, fun _ => ⟨f2, f3⟩, fun h => ?_⟩
    · constructor
      · intro _
        rw [hnn]
        omega
      · intro _
        exact f1
    · rw [f1] at h
      exact absurd h (by decide)
  · simp only [hc, if_false] at f1 f2 f3
    refine ⟨by omega, ?_, fun h => ?_, fun _ => ⟨f2, f3⟩⟩
    · constructor
      · intro h
        rw [f1] at h
        exact absurd h (by decide)
      · intro h
        rw [hnn] at h
        omega
    · rw [f1] at h
      exact absurd h (by decide)

theorem aggregator_termination_completeness_witness :
    (2 ≤ 3)
    ∧ ((aggRun 3 initialAggState [endMsgFrom 1, endMsgFrom 2]).1.endProcessingCalls = 1
        ↔ (aggRun 3 initialAggState [endMsgFrom 1, endMsgFrom 2]).1.numNomore = 3 - 1) :=
  ⟨by decide,
   (aggregator_termination_completeness 3 (by decide)
      [endMsgFrom 1, endMsgFrom 2]).2.1⟩

/-- **C2 counterexample.** The aggregator's finished-worker count is not a
count of distinct ranks: a second END sentinel from the same rank 1 moves
`_num_nomore` from 1 to 2 even though only one distinct rank has
terminated, so a duplicate END does not leave the termination state
unchanged. -/
theorem duplicate_end_increments_count :
    (aggRun 4 initialAggState [endMsgFrom 1]).1.numNomore = 1
    ∧ (aggRun 4 initialAggState [endMsgFrom 1, endMsgFrom 1]).1.numNomore = 2
    ∧ (List.map Msg.srcRank [endMsgFrom 1, endMsgFrom 1]).dedup.length = 1 := by
  decide

/-- **C2 (amended).** The aggregator's finished-worker count reflects the
number of END sentinel messages it has received (capped by the flush
threshold `pool_size - 1`, at which it exits), not the number of distinct
terminated ranks; the sender rank is ignored by the END classification, so
a duplicate END from an already-terminated rank increments the count
again. -/
theorem aggregator_counts_end_messages (mpiSize : Nat) (hsize : 2 ≤ mpiSize)
    (msgs : List Msg) :
    ((aggRun mpiSize initialAggState msgs).1.numNomore
        = min (countEnds msgs) (mpiSize - 1))
    ∧ (∀ (p : List (String × PyVal)) (r₁ r₂ : Nat),
        isEndMessage { payload := p, srcRank := r₁ }
          = isEndMessage { payload := p, srcRank := r₂ }) := by
  have h0 : initialAggState.numNomore < mpiSize - 1 := by
    simp only [initialAggState]
    omega
  have hnn := aggRun_numNomore mpiSize msgs initialAggState h0
  simp only [initialAggState, Nat.zero_add] at hnn
  exact ⟨hnn, fun p r₁ r₂ => rfl⟩

theorem aggregator_counts_end_messages_witness :
    (2 ≤ 4)
    ∧ (aggRun 4 initialAggState [endMsgFrom 1, endMsgFrom 1]).1.numNomore
        = min (countEnds [endMsgFrom 1, endMsgFrom 1]) (4 - 1) :=
  ⟨by decide,
   (aggregator_counts_end_messages 4 (by decide) [endMsgFrom 1, endMsgFrom 1]).1⟩

/-- **C9.** The aggregator classifies an incoming message as a
worker-termination record solely by testing whether the string `"end"` is
a key of the payload dictionary, ignoring the associated value and the
sender rank; any message whose payload contains an `"end"` key is counted
toward the finished-worker total, is never passed to `collect_data`, and
does not increment `_num_collected_events`. -/
theorem end_classification_by_key_only (mpiSize : Nat) (hsize : 2 ≤ mpiSize)
    (msgs : List Msg) :
    (∀ (p₁ p₂ : List (String × PyVal)) (r₁ r₂ : Nat),
        payloadKeys p₁ = payloadKeys p₂ →
        isEndMessage { payload := p₁, srcRank := r₁ }
          = isEndMessage { payload := p₂, srcRank := r₂ })
    ∧ ∃ pre, msgs = pre ++ (aggRun mpiSize initialAggState msgs).2
        ∧ (aggRun mpiSize initialAggState msgs).1.numNomore = countEnds pre
        ∧ (aggRun mpiSize initialAggState msgs).1.collected = dataMsgs pre
        ∧ (aggRun mpiSize initialAggState msgs).1.numCollectedEvents
            = (dataMsgs pre).length := by
  constructor
  · intro p₁ p₂ r₁ r₂ h
    simp only [isEndMessage, h]
  · have h0 : initialAggState.numNomore < mpiSize - 1 := by
      simp only [initialAggState]
      omega
    obtain ⟨pre, hpre, hn, hc, hk⟩ := aggRun_consumed mpiSize msgs initialAggState h0
    simp only [initialAggState, Nat.zero_add, List.nil_append] at hn hc hk
    exact ⟨pre, hpre, hn, hc, hk⟩

theorem end_classification_by_key_only_witness :
    isEndMessage { payload := [("end", PyVal.vInt 7), ("x", PyVal.vInt 1)], srcRank := 5 }
      = isEndMessage { payload := [("end", PyVal.vBool true), ("x", PyVal.vNone)], srcRank := 1 } :=
  (end_classification_by_key_only 3 (by decide) []).1
    [("end", PyVal.vInt 7), ("x", PyVal.vInt 1)]
    [("end", PyVal.vBool true), ("x", PyVal.vNone)] 5 1 (by decide)

/-! ### The shutdown path (`MpiParallelization.shutdown`, lines 230-275)

On the collecting node the shutdown routine sends `_DIETAG` to every
processing node (`for node_num in range(1, self._mpi_size)`), then loops:
each iteration probes for a normal (tag 0) message and drains it, probes
for a `_DEADTAG` confirmation and counts it, and breaks once the
confirmation count reaches `mpi_size - 1`; it then finalizes MPI and calls
`exit(0)`.  The probe outcomes of each loop iteration are modelled as a
schedule of observations. -/

structure ShutdownObs where
  dataAvailable : Bool
  deadAvailable : Bool
  deriving DecidableEq

structure ShutdownResult where
  drainedData : Nat
  confirmations : Nat
  finalized : Bool
  exitCode : Option Nat
  deriving DecidableEq

/-- Number of loop iterations of a schedule at which a DEAD confirmation
is observed. -/
def countDeadObs (obs : List ShutdownObs) : Nat :=
  obs.countP (fun o => o.deadAvailable)

/-- The `while True` drain loop of `shutdown` (lines 257-267).  An
exhausted schedule means the loop is still blocked waiting for
confirmations (`exitCode = none`). -/
def shutdownLoop (mpiSize : Nat) : Nat → Nat → List ShutdownObs → ShutdownResult
  | drained, confirms, [] =>
    { drainedData := drained
      confirmations := confirms
      finalized := false
      exitCode := none }
  | drained, confirms, o :: rest =>
    let drained' := if o.dataAvailable then drained + 1 else drained
    let confirms' := if o.deadAvailable then confirms + 1 else confirms
    if confirms' = mpiSize - 1 then
      { drainedData := drained'
        confirmations := confirms'
        finalized := true
        exitCode := some 0 }
    else
      shutdownLoop mpiSize drained' confirms' rest

/-- `shutdown` on the collecting node: the list of ranks sent `_DIETAG`
(`range(1, mpi_size)`) paired with the result of the drain loop. -/
def shutdownCollecting (mpiSize : Nat) (obs : List ShutdownObs) :
    List Nat × ShutdownResult :=
  ((List.range (mpiSize - 1)).map (· + 1), shutdownLoop mpiSize 0 0 obs)

theorem shutdownLoop_spec (mpiSize : Nat) :
    ∀ (obs : List ShutdownObs) (drained confirms : Nat),
      confirms < mpiSize - 1 →
      ((shutdownLoop mpiSize drained confirms obs).exitCode
          = if mpiSize - 1 ≤ confirms + countDeadObs obs then some 0 else none)
      ∧ ((shutdownLoop mpiSize drained confirms obs).confirmations
          = min (confirms + countDeadObs obs) (mpiSize - 1))
      ∧ ((shutdownLoop mpiSize drained confirms obs).finalized
          = decide (mpiSize - 1 ≤ confirms + countDeadObs obs)) := by
  intro obs
  induction obs with
  | nil =>
    intro drained confirms hcn
    have hcd : countDeadObs ([] : List ShutdownObs) = 0 := rfl
    have hn : ¬ mpiSize - 1 ≤ confirms + countDeadObs ([] : List ShutdownObs) := by
      rw [hcd]
      omega
    refine ⟨by simp [shutdownLoop, hn], ?_, by simp [shutdownLoop, hn]⟩
    rw [hcd]
    simp only [shutdownLoop]
    omega
  | cons o rest ih =>
    intro drained confirms hcn
    by_cases hdead : o.deadAvailable = true
    · have hcount : countDeadObs (o :: rest) = countDeadObs rest + 1 := by
        simp [countDeadObs, List.countP_cons, hdead]
      by_cases hhit : confirms + 1 = mpiSize - 1
      · have hle : mpiSize - 1 ≤ confirms + countDeadObs (o :: rest) := by omega
        have hstep : shutdownLoop mpiSize drained confirms (o :: rest)
            = { drainedData := if o.dataAvailable = true then drained + 1 else drained
                confirmations := confirms + 1
                finalized := true
                exitCode := some 0 } := by
          simp [shutdownLoop, hdead, hhit]
        rw [hstep]
        refine ⟨by simp [hle], ?_, by simp [hle]⟩
        simp only []
        omega
      · have hlt : confirms + 1 < mpiSize - 1 := by omega
        have hstep : shutdownLoop mpiSize drained confirms (o :: rest)
            = shutdownLoop mpiSize
                (if o.dataAvailable = true then drained + 1 else drained)
                (confirms + 1) rest := by
          simp [shutdownLoop, hdead, hhit]
        obtain ⟨e1, e2, e3⟩ :=
          ih (if o.dataAvailable = true then drained + 1 else drained)
            (confirms + 1) hlt
        rw [hstep, hcount]
        refine ⟨?_, ?_, ?_⟩
        · rw [e1]
          exact if_congr (by omega) rfl rfl
        · rw [e2]
          omega
        · rw [e3]
          exact decide_eq_decide.mpr (by omega)
    · have hdead' : o.deadAvailable = false := by simpa using hdead
      have hcount : countDeadObs (o :: rest) = countDeadObs rest := by
        simp [countDeadObs, List.countP_cons, hdead']
      have hne : ¬ confirms = mpiSize - 1 := by omega
      have hstep : shutdownLoop mpiSize drained confirms (o :: rest)
          = shutdownLoop mpiSize
              (if o.dataAvailable = true then drained + 1 else drained)
              confirms rest := by
        simp [shutdownLoop, hdead', hne]
      rw [hstep, hcount]
      exact ih (if o.dataAvailable = true then drained + 1 else drained) confirms hcn

/-- **C8 counterexample.** A forced shutdown does not exit with a non-zero
status: on a pool of 2 nodes, after the single worker's DEAD confirmation
is observed, the collecting node's shutdown path exits with status 0
(`exit(0)` on line 267 of `mpi.py`, and `sys.exit(0)` on line 153 after
the KeyboardInterrupt handler), contradicting the claimed non-zero exit
status. -/
theorem forced_shutdown_exit_code_zero :
    (shutdownCollecting 2
        [{ dataAvailable := false, deadAvailable := true }]).2.exitCode = some 0
    ∧ ¬ ((shutdownCollecting 2
        [{ dataAvailable := false, deadAvailable := true }]).2.exitCode ≠ some 0) := by
  decide

/-- **C8 (amended).** When a keyboard interrupt reaches the aggregator's
receive loop, the aggregator sends DIE to every worker rank `1 ..
pool_size - 1`, waits while draining DATA messages until `pool_size - 1`
DEAD confirmations have been observed, and the process then exits with
status 0 — the same status as normal termination; no non-zero exit status
is produced on this path. -/
theorem shutdown_die_dead_exit_zero (mpiSize : Nat) (hsize : 2 ≤ mpiSize)
    (obs : List ShutdownObs) :
    (∀ rk, rk ∈ (shutdownCollecting mpiSize obs).1 ↔ 1 ≤ rk ∧ rk < mpiSize)
    ∧ ((shutdownCollecting mpiSize obs).2.exitCode = some 0
        ↔ mpiSize - 1 ≤ countDeadObs obs)
    ∧ ((shutdownCollecting mpiSize obs).2.exitCode = some 0
        → (shutdownCollecting mpiSize obs).2.confirmations = mpiSize - 1
          ∧ (shutdownCollecting mpiSize obs).2.finalized = true)
    ∧ (∀ code, (shutdownCollecting mpiSize obs).2.exitCode = some code → code = 0) := by
  obtain ⟨e1, e2, e3⟩ := shutdownLoop_spec mpiSize obs 0 0 (by omega)
  simp only [Nat.zero_add] at e1 e2 e3
  refine ⟨?_, ?_, ?_, ?_⟩
  · intro rk
    simp only [shutdownCollecting, List.mem_map, List.mem_range]
    constructor
    · rintro ⟨i, hi, rfl⟩
      omega
    · intro ⟨h1, h2⟩
      exact ⟨rk - 1, by omega, by omega⟩
  · simp only [shutdownCollecting]
    rw [e1]
    by_cases hle : mpiSize - 1 ≤ countDeadObs obs
    · simp [hle]
    · simp [hle]
  · intro hx
    simp only [shutdownCollecting] at hx ⊢
    rw [e1] at hx
    by_cases hle : mpiSize - 1 ≤ countDeadObs obs
    · rw [e2, e3]
      refine ⟨by omega, by simp [hle]⟩
    · simp [hle] at hx
  · intro code hx
    simp only [shutdownCollecting] at hx
    rw [e1] at hx
    by_cases hle : mpiSize - 1 ≤ countDeadObs obs
    · simp [hle] at hx
      omega
    · simp [hle] at hx

theorem shutdown_die_dead_exit_zero_witness :
    (2 ≤ 2)
    ∧ ((shutdownCollecting 2
          [{ dataAvailable := true, deadAvailable := true }]).2.exitCode = some 0
        ↔ 2 - 1 ≤ countDeadObs [{ dataAvailable := true, deadAvailable := true }]) :=
  ⟨by decide,
   (shutdown_die_dead_exit_zero 2 (by decide)
      [{ dataAvailable := true, deadAvailable := true }]).2.1⟩

/-! ### The processing-node frame loop (`MpiParallelization.start`, lines 154-228)

Frame selection (lines 173-186): with `n_frames_in_evt` frames in the
event and the configured `num_frames_in_event_to_process` (an `int`
parameter that may be absent, i.e. `None`), the loop computes
`num_frames_to_process = min(n, limit)` (or `n` when the limit is `None`)
and iterates `frame_offset` over the Python range `[-num_frames_to_process, 0)`,
setting `current_frame = n_frames_in_evt + frame_offset`. -/

/-- Python `range(a, b)` over integers (empty when `b ≤ a`). -/
def pyRange (a b : Int) : List Int :=
  (List.range (b - a).toNat).map (fun (i : Nat) => a + (i : Int))

/-- The `current_frame` values visited by the worker's frame loop for an
event with `nFramesInEvt` frames, given the configured
`num_frames_in_event_to_process` (`none` models the Python `None`). -/
def framesToProcess (nFramesInEvt : Nat) (limit : Option Int) : List Int :=
  let numFramesToProcess : Int :=
    match limit with
    | some l => min (nFramesInEvt : Int) l
    | none => (nFramesInEvt : Int)
  (pyRange (-numFramesToProcess) 0).map (fun off => (nFramesInEvt : Int) + off)

theorem pyRange_length (a b : Int) : (pyRange a b).length = (b - a).toNat := by
  simp [pyRange]

/-- **C4.** For every event with `n` frames and configured limit
`num_frames_in_event_to_process`, the worker processes exactly
`k = min(n, limit)` frames (all `n` frames when the parameter is `None`),
and those are the last `k` frames of the event, visited with
`current_frame` taking the values `n-k, n-k+1, ..., n-1` in increasing
order; in particular for `n = 5` and limit `2` the frames `3` and `4` are
processed, in that order. -/
theorem worker_processes_last_frames (n l : Nat) :
    (framesToProcess n (some (l : Int))
        = (List.range (min n l)).map (fun i => ((n - min n l + i : Nat) : Int)))
    ∧ (framesToProcess n (some (l : Int))).length = min n l
    ∧ (framesToProcess n none = (List.range n).map (fun (i : Nat) => (i : Int)))
    ∧ (framesToProcess n (some (l : Int))).Pairwise (· < ·)
    ∧ framesToProcess 5 (some 2) = [3, 4] := by
  have h1 : framesToProcess n (some (l : Int))
      = (List.range (min n l)).map (fun i => ((n - min n l + i : Nat) : Int)) := by
    simp only [framesToProcess, pyRange]
    apply List.ext_getElem
    · simp
      omega
    · intro i hi1 hi2
      simp only [List.length_map, List.length_range] at hi1 hi2
      simp only [List.getElem_map, List.getElem_range]
      omega
  refine ⟨h1, ?_, ?_, ?_, by decide⟩
  · rw [h1]
    simp
  · simp only [framesToProcess, pyRange]
    apply List.ext_getElem
    · simp
    · intro i hi1 hi2
      simp only [List.length_map, List.length_range] at hi1 hi2
      simp only [List.getElem_map, List.getElem_range]
      omega
  · rw [h1]
    refine List.Pairwise.map _ ?_ (List.pairwise_lt_range (min n l))
    intro a b hab
    have hk : min n l ≤ n := Nat.min_le_left n l
    omega

/-! The per-event body of the worker loop (lines 172-206) and the final
sends (lines 208-226), recorded as a trace of transport operations.  An
event is modelled by the list of extraction outcomes of its processed
frames (`none` = `OmDataExtractionError`, caught and skipped on lines
187-194); `process_data` is abstracted by the identity on the extracted
value.  The `req` flag mirrors the Python `req` variable: truthy once a
request object has been assigned (line 160: initially `None`). -/

inductive WMsg (α : Type) where
  | data (a : α)
  | final (a : α)
  | endSentinel
  deriving DecidableEq

inductive WOp (α : Type) where
  | isend (p : WMsg α)
  | wait
  | closeEvent
  deriving DecidableEq

/-- One frame iteration (lines 184-202): on extraction failure the frame
is skipped (`continue`); otherwise the worker waits for any previous
request and posts a new non-blocking send of the processed data. -/
def frameStep {α : Type} (acc : List (WOp α) × Bool) (res : Option α) :
    List (WOp α) × Bool :=
  match res with
  | none => acc
  | some d =>
    (acc.1 ++ (if acc.2 then [WOp.wait] else []) ++ [WOp.isend (WMsg.data d)], true)

/-- One event iteration (lines 172-206): the frame loop, then a wait for
the last in-flight send (lines 204-205), then `close_event`. -/
def eventStep {α : Type} (acc : List (WOp α) × Bool) (frames : List (Option α)) :
    List (WOp α) × Bool :=
  let fr := frames.foldl frameStep acc
  (fr.1 ++ (if fr.2 then [WOp.wait] else []) ++ [WOp.closeEvent], fr.2)

/-- The full worker trace (lines 159-226): the event loop, then the
optional `end_processing_on_processing_node` payload (sent and waited on,
lines 211-219), then the END sentinel (sent and waited on, lines
221-226). -/
def workerTrace {α : Type} (events : List (List (Option α)))
    (finalData : Option α) : List (WOp α) :=
  let ev := events.foldl eventStep ([], false)
  let fin :=
    match finalData with
    | some d => ev.1 ++ [WOp.isend (WMsg.final d), WOp.wait]
    | none => ev.1
  fin ++ [WOp.isend WMsg.endSentinel, WOp.wait]

/-- Number of MPI requests pending after an operation, given the number
pending before it (at most one request object exists, so a wait clears
the pending send if any). -/
def pendStep {α : Type} (p : Nat) : WOp α → Nat
  | WOp.isend _ => p + 1
  | WOp.wait => p - 1
  | WOp.closeEvent => p

def pendAfter {α : Type} (p : Nat) (ops : List (WOp α)) : Nat :=
  ops.foldl pendStep p

/-- Checks the one-in-flight discipline over a trace: every send is posted
with no send pending, and every event close happens with no send
pending. -/
def oneInFlightCheck {α : Type} : Nat → List (WOp α) → Bool
  | _, [] => true
  | p, WOp.isend _ :: rest => p == 0 && oneInFlightCheck 1 rest
  | p, WOp.wait :: rest => oneInFlightCheck (p - 1) rest
  | p, WOp.closeEvent :: rest => p == 0 && oneInFlightCheck p rest

/-- The payloads carried by the sends of a trace, in trace order. -/
def sentPayloads {α : Type} : List (WOp α) → List (WMsg α)
  | [] => []
  | WOp.isend p :: rest => p :: sentPayloads rest
  | WOp.wait :: rest => sentPayloads rest
  | WOp.closeEvent :: rest => sentPayloads rest

/-- Number of `close_event` calls in a trace. -/
def closeCount {α : Type} (ops : List (WOp α)) : Nat :=
  ops.countP (fun op => match op with | WOp.closeEvent => true | _ => false)

/-- The payloads a worker produces, in production order: the successfully
extracted frames of each event, then the optional final payload, then the
END sentinel. -/
def producedPayloads {α : Type} (events : List (List (Option α)))
    (finalData : Option α) : List (WMsg α) :=
  (events.map (fun frames => (frames.filterMap id).map WMsg.data)).flatten
    ++ (finalData.toList.map WMsg.final) ++ [WMsg.endSentinel]

theorem pendAfter_append {α : Type} (p : Nat) (xs ys : List (WOp α)) :
    pendAfter p (xs ++ ys) = pendAfter (pendAfter p xs) ys := by
  simp [pendAfter, List.foldl_append]

theorem pendAfter_nil {α : Type} (p : Nat) :
    pendAfter p ([] : List (WOp α)) = p := rfl

theorem pendAfter_cons {α : Type} (p : Nat) (op : WOp α) (ops : List (WOp α)) :
    pendAfter p (op :: ops) = pendAfter (pendStep p op) ops := rfl

theorem oneInFlightCheck_nil {α : Type} (p : Nat) :
    oneInFlightCheck p ([] : List (WOp α)) = true := rfl

theorem oneInFlightCheck_cons_isend {α : Type} (p : Nat) (d : WMsg α)
    (ops : List (WOp α)) :
    oneInFlightCheck p (WOp.isend d :: ops)
      = ((p == 0) && oneInFlightCheck 1 ops) := rfl

theorem oneInFlightCheck_cons_wait {α : Type} (p : Nat) (ops : List (WOp α)) :
    oneInFlightCheck p (WOp.wait :: ops) = oneInFlightCheck (p - 1) ops := rfl

theorem oneInFlightCheck_cons_close {α : Type} (p : Nat) (ops : List (WOp α)) :
    oneInFlightCheck p (WOp.closeEvent :: ops)
      = ((p == 0) && oneInFlightCheck p ops) := rfl

theorem closeCount_nil {α : Type} : closeCount ([] : List (WOp α)) = 0 := rfl

theorem closeCount_cons_isend {α : Type} (d : WMsg α) (ops : List (WOp α)) :
    closeCount (WOp.isend d :: ops) = closeCount ops := by
  simp [closeCount, List.countP_cons]

theorem closeCount_cons_wait {α : Type} (ops : List (WOp α)) :
    closeCount (WOp.wait :: ops) = closeCount ops := by
  simp [closeCount, List.countP_cons]

theorem closeCount_cons_close {α : Type} (ops : List (WOp α)) :
    closeCount (WOp.closeEvent :: ops) = closeCount ops + 1 := by
  simp [closeCount, List.countP_cons]

theorem oneInFlightCheck_append {α : Type} (xs : List (WOp α)) :
    ∀ (p : Nat) (ys : List (WOp α)),
      oneInFlightCheck p (xs ++ ys)
        = (oneInFlightCheck p xs && oneInFlightCheck (pendAfter p xs) ys) := by
  induction xs with
  | nil =>
    intro p ys
    simp [oneInFlightCheck, pendAfter]
  | cons op rest ih =>
    intro p ys
    cases op with
    | isend d =>
      by_cases hp : p = 0
      · subst hp
        simp [oneInFlightCheck, pendAfter, pendStep, ih, Bool.and_assoc]
      · have hp' : (p == 0) = false := by simpa using hp
        simp [oneInFlightCheck, hp']
    | wait =>
      simp [oneInFlightCheck, pendAfter, pendStep, ih]
    | closeEvent =>
      by_cases hp : p = 0
      · subst hp
        simp [oneInFlightCheck, pendAfter, pendStep, ih, Bool.and_assoc]
      · have hp' : (p == 0) = false := by simpa using hp
        simp [oneInFlightCheck, hp']

/-- Invariant of the worker loop state: the trace so far satisfies the
discipline, and a send is pending only if the `req` flag is set. -/
def goodAcc {α : Type} (acc : List (WOp α) × Bool) : Prop :=
  oneInFlightCheck 0 acc.1 = true
    ∧ (pendAfter 0 acc.1 = 0 ∨ (pendAfter 0 acc.1 = 1 ∧ acc.2 = true))

/-- Between events (and at the end of the run) nothing is pending. -/
def quietAcc {α : Type} (acc : List (WOp α) × Bool) : Prop :=
  oneInFlightCheck 0 acc.1 = true ∧ pendAfter 0 acc.1 = 0

theorem quietAcc_good {α : Type} (acc : List (WOp α) × Bool)
    (h : quietAcc acc) : goodAcc acc :=
  ⟨h.1, Or.inl h.2⟩

theorem frameStep_good {α : Type} (acc : List (WOp α) × Bool) (res : Option α)
    (h : goodAcc acc) : goodAcc (frameStep acc res) := by
  obtain ⟨hchk, hp⟩ := h
  cases res with
  | none => exact ⟨hchk, hp⟩
  | some d =>
    cases hreq : acc.2 with
    | false =>
      have hp0 : pendAfter 0 acc.1 = 0 := by
        rcases hp with h0 | ⟨h1, h2⟩
        · exact h0
        · rw [hreq] at h2
          cases h2
      refine ⟨?_, Or.inr ⟨?_, by simp [frameStep]⟩⟩
      · simp [frameStep, hreq, oneInFlightCheck_append, hchk, hp0,
          oneInFlightCheck_cons_isend, oneInFlightCheck_nil]
      · simp [frameStep, hreq, pendAfter_append, hp0, pendAfter_cons,
          pendAfter_nil, pendStep]
    | true =>
      have hple : pendAfter 0 acc.1 = 0 ∨ pendAfter 0 acc.1 = 1 := by
        rcases hp with h0 | ⟨h1, _⟩
        · exact Or.inl h0
        · exact Or.inr h1
      refine ⟨?_, Or.inr ⟨?_, by simp [frameStep]⟩⟩
      · rcases hple with h | h <;>
          simp [frameStep, hreq, oneInFlightCheck_append, hchk, h,
            pendAfter_append, pendAfter_cons, pendAfter_nil, pendStep,
            oneInFlightCheck_cons_isend, oneInFlightCheck_cons_wait,
            oneInFlightCheck_nil]
      · rcases hple with h | h <;>
          simp [frameStep, hreq, pendAfter_append, h, pendAfter_cons,
            pendAfter_nil, pendStep]

theorem foldl_frameStep_good {α : Type} (frames : List (Option α)) :
    ∀ acc : List (WOp α) × Bool, goodAcc acc →
      goodAcc (frames.foldl frameStep acc) := by
  induction frames with
  | nil =>
    intro acc h
    exact h
  | cons f rest ih =>
    intro acc h
    exact ih _ (frameStep_good acc f h)

theorem eventStep_quiet {α : Type} (acc : List (WOp α) × Bool)
    (frames : List (Option α)) (h : goodAcc acc) :
    quietAcc (eventStep acc frames) := by
  obtain ⟨hchk, hp⟩ := foldl_frameStep_good frames acc h
  cases hreq : (frames.foldl frameStep acc).2 with
  | false =>
    have hp0 : pendAfter 0 (frames.foldl frameStep acc).1 = 0 := by
      rcases hp with h0 | ⟨h1, h2⟩
      · exact h0
      · rw [hreq] at h2
        cases h2
    refine ⟨?_, ?_⟩
    · simp [eventStep, hreq, oneInFlightCheck_append, hchk, hp0,
        oneInFlightCheck_cons_close, oneInFlightCheck_nil]
    · simp [eventStep, hreq, pendAfter_append, hp0, pendAfter_cons,
        pendAfter_nil, pendStep]
  | true =>
    have hple : pendAfter 0 (frames.foldl frameStep acc).1 = 0
        ∨ pendAfter 0 (frames.foldl frameStep acc).1 = 1 := by
      rcases hp with h0 | ⟨h1, _⟩
      · exact Or.inl h0
      · exact Or.inr h1
    refine ⟨?_, ?_⟩
    · rcases hple with h | h <;>
        simp [eventStep, hreq, oneInFlightCheck_append, hchk, h,
          pendAfter_append, pendAfter_cons, pendAfter_nil, pendStep,
          oneInFlightCheck_cons_close, oneInFlightCheck_cons_wait,
          oneInFlightCheck_nil]
    · rcases hple with h | h <;>
        simp [eventStep, hreq, pendAfter_append, h, pendAfter_cons,
          pendAfter_nil, pendStep]

theorem foldl_eventStep_quiet {α : Type} (events : List (List (Option α))) :
    ∀ acc : List (WOp α) × Bool, quietAcc acc →
      quietAcc (events.foldl eventStep acc) := by
  induction events with
  | nil =>
    intro acc h
    exact h
  | cons e rest ih =>
    intro acc h
    exact ih _ (eventStep_quiet acc e (quietAcc_good acc h))

theorem workerTrace_check {α : Type} (events : List (List (Option α)))
    (finalData : Option α) :
    oneInFlightCheck 0 (workerTrace events finalData) = true := by
  obtain ⟨hchk, hp⟩ :=
    foldl_eventStep_quiet events ([], false) ⟨rfl, rfl⟩
  cases finalData with
  | none =>
    simp [workerTrace, oneInFlightCheck_append, hchk, hp,
      oneInFlightCheck_cons_isend, oneInFlightCheck_cons_wait,
      oneInFlightCheck_nil, pendAfter_append, pendAfter_cons, pendAfter_nil,
      pendStep]
  | some d =>
    simp [workerTrace, oneInFlightCheck_append, hchk, hp,
      oneInFlightCheck_cons_isend, oneInFlightCheck_cons_wait,
      oneInFlightCheck_nil, pendAfter_append, pendAfter_cons, pendAfter_nil,
      pendStep]

theorem sentPayloads_append {α : Type} (xs ys : List (WOp α)) :
    sentPayloads (xs ++ ys) = sentPayloads xs ++ sentPayloads ys := by
  induction xs with
  | nil => simp [sentPayloads]
  | cons op rest ih =>
    cases op <;> simp [sentPayloads, ih]

theorem closeCount_append {α : Type} (xs ys : List (WOp α)) :
    closeCount (xs ++ ys) = closeCount xs + closeCount ys := by
  simp [closeCount, List.countP_append]

theorem foldl_frameStep_sent {α : Type} (frames : List (Option α)) :
    ∀ acc : List (WOp α) × Bool,
      sentPayloads (frames.foldl frameStep acc).1
        = sentPayloads acc.1 ++ (frames.filterMap id).map WMsg.data := by
  induction frames with
  | nil =>
    intro acc
    simp
  | cons f rest ih =>
    intro acc
    cases f with
    | none =>
      simp [frameStep, ih]
    | some d =>
      rw [List.foldl_cons, ih]
      cases hreq : acc.2 <;>
        simp [frameStep, hreq, sentPayloads_append, sentPayloads]

theorem foldl_frameStep_close {α : Type} (frames : List (Option α)) :
    ∀ acc : List (WOp α) × Bool,
      closeCount (frames.foldl frameStep acc).1 = closeCount acc.1 := by
  induction frames with
  | nil =>
    intro acc
    simp
  | cons f rest ih =>
    intro acc
    cases f with
    | none =>
      simp [frameStep, ih]
    | some d =>
      rw [List.foldl_cons, ih]
      cases hreq : acc.2 <;>
        simp [frameStep, hreq, closeCount_append, closeCount_cons_isend,
          closeCount_cons_wait, closeCount_nil]

theorem eventStep_sent {α : Type} (acc : List (WOp α) × Bool)
    (frames : List (Option α)) :
    sentPayloads (eventStep acc frames).1
      = sentPayloads acc.1 ++ (frames.filterMap id).map WMsg.data := by
  cases hreq : (frames.foldl frameStep acc).2 <;>
    simp [eventStep, hreq, sentPayloads_append, sentPayloads,
      foldl_frameStep_sent]

theorem eventStep_close {α : Type} (acc : List (WOp α) × Bool)
    (frames : List (Option α)) :
    closeCount (eventStep acc frames).1 = closeCount acc.1 + 1 := by
  cases hreq : (frames.foldl frameStep acc).2 <;>
    simp [eventStep, hreq, closeCount_append, closeCount_cons_close,
      closeCount_cons_wait, closeCount_nil, foldl_frameStep_close]

theorem foldl_eventStep_sent {α : Type} (events : List (List (Option α))) :
    ∀ acc : List (WOp α) × Bool,
      sentPayloads (events.foldl eventStep acc).1
        = sentPayloads acc.1
          ++ (events.map (fun frames => (frames.filterMap id).map WMsg.data)).flatten := by
  induction events with
  | nil =>
    intro acc
    simp
  | cons e rest ih =>
    intro acc
    rw [List.foldl_cons, ih, eventStep_sent]
    simp

theorem foldl_eventStep_close {α : Type} (events : List (List (Option α))) :
    ∀ acc : List (WOp α) × Bool,
      closeCount (events.foldl eventStep acc).1
        = closeCount acc.1 + events.length := by
  induction events with
  | nil =>
    intro acc
    simp
  | cons e rest ih =>
    intro acc
    rw [List.foldl_cons, ih, eventStep_close]
    simp
    omega

theorem workerTrace_sent {α : Type} (events : List (List (Option α)))
    (finalData : Option α) :
    sentPayloads (workerTrace events finalData)
      = producedPayloads events finalData := by
  cases finalData with
  | none =>
    simp [workerTrace, producedPayloads, sentPayloads_append,
      foldl_eventStep_sent, sentPayloads]
  | some d =>
    simp [workerTrace, producedPayloads, sentPayloads_append,
      foldl_eventStep_sent, sentPayloads]

theorem workerTrace_close {α : Type} (events : List (List (Option α)))
    (finalData : Option α) :
    closeCount (workerTrace events finalData) = events.length := by
  cases finalData with
  | none =>
    simp [workerTrace, closeCount_append, foldl_eventStep_close,
      closeCount_cons_isend, closeCount_cons_wait, closeCount_nil]
  | some d =>
    simp [workerTrace, closeCount_append, foldl_eventStep_close,
      closeCount_cons_isend, closeCount_cons_wait, closeCount_nil]

/-- **C6.** At every point in a worker's execution at most one outbound
send is pending: before any non-blocking send (per-frame payload, final
payload or END sentinel) the worker has waited for the previous send, and
it has also waited for the last in-flight send before each `close_event`;
consequently the payloads of a worker's sends appear in the trace exactly
in the order they were produced. -/
theorem worker_one_in_flight {α : Type} (events : List (List (Option α)))
    (finalData : Option α) :
    oneInFlightCheck 0 (workerTrace events finalData) = true
    ∧ sentPayloads (workerTrace events finalData)
        = producedPayloads events finalData :=
  ⟨workerTrace_check events finalData, workerTrace_sent events finalData⟩

/-- **C5.** When data extraction for one frame of an event raises
`OmDataExtractionError` the worker skips only that frame: the trace sends
exactly the payloads it would send for the same run with the failing frame
absent (no payload for the failing frame, the remaining frames of the same
event still processed, subsequent events still processed), and every
event — the failing one included — is closed. -/
theorem extraction_error_isolated {α : Type} (evs1 : List (List (Option α)))
    (pre post : List (Option α)) (evs2 : List (List (Option α)))
    (finalData : Option α) :
    sentPayloads (workerTrace (evs1 ++ (pre ++ none :: post) :: evs2) finalData)
      = producedPayloads (evs1 ++ (pre ++ post) :: evs2) finalData
    ∧ closeCount (workerTrace (evs1 ++ (pre ++ none :: post) :: evs2) finalData)
        = evs1.length + 1 + evs2.length := by
  constructor
  · rw [workerTrace_sent]
    simp [producedPayloads]
  · rw [workerTrace_close]
    simp
    omega

/-! ### The typed configuration accessor (`MonitorParams.get_param`,
`src/om/utils/parameters.py`, lines 78-173)

The YAML configuration is a nested map group → key → value, modelled as
association lists.  Python type objects passed as `parameter_type` are
modelled by `PyType`; `isinstance` follows Python semantics (in
particular `bool` is a subclass of `int`), and `basestring` (from
`past.builtins`) covers both `str` and `bytes`. -/

inductive PyType where
  | pyBool
  | pyInt
  | pyFloat
  | pyStr
  | pyBytes
  | pyList
  deriving DecidableEq

/-- Python `isinstance` on the modelled values and types. -/
def isinstance : PyVal → PyType → Bool
  | PyVal.vBool _, PyType.pyBool => true
  | PyVal.vBool _, PyType.pyInt => true
  | PyVal.vInt _, PyType.pyInt => true
  | PyVal.vFloat _, PyType.pyFloat => true
  | PyVal.vStr _, PyType.pyStr => true
  | PyVal.vBytes _, PyType.pyBytes => true
  | PyVal.vList _, PyType.pyList => true
  | _, _ => false

inductive ConfigError where
  | missingParameterGroup
  | missingParameter
  | wrongParameterType
  deriving DecidableEq

abbrev ParamGroup := List (String × PyVal)
abbrev ParamTree := List (String × ParamGroup)

/-- Association-list lookup (Python `dict` subscript / `in`). -/
def alistGet {β : Type} : List (String × β) → String → Option β
  | [], _ => none
  | (k, v) :: rest, key => if k == key then some v else alistGet rest key

/-- Python `dict.get`: `None` both for a missing key and for a stored
YAML `null` (which is loaded as Python `None`). -/
def pyDictGet (g : ParamGroup) (k : String) : Option PyVal :=
  match alistGet g k with
  | none => none
  | some PyVal.vNone => none
  | some v => some v

/-- The type test applied on lines 140-168 of `parameters.py`:
`str` is checked against `basestring` (so `bytes` also passes), `float`
also accepts `int`, and every other requested type uses plain
`isinstance`. -/
def typeCheckOk (parameterType : PyType) (ret : PyVal) : Bool :=
  match parameterType with
  | PyType.pyStr => isinstance ret PyType.pyStr || isinstance ret PyType.pyBytes
  | PyType.pyFloat => isinstance ret PyType.pyFloat || isinstance ret PyType.pyInt
  | t => isinstance ret t

/-- `MonitorParams.get_param` (lines 78-173).  Returns the outcome
(`Except` models the raised exceptions, `Option` the returned value,
which may be Python `None`) together with the parameter tree after the
call — every path returns the tree unchanged, since the method never
assigns to `self._monitor_params`. -/
def get_param (tree : ParamTree) (group parameter : String)
    (parameterType : Option PyType) (required : Bool) :
    Except ConfigError (Option PyVal) × ParamTree :=
  match alistGet tree group with
  | none => (Except.error ConfigError.missingParameterGroup, tree)
  | some g =>
    match pyDictGet g parameter with
    | none =>
      if required then (Except.error ConfigError.missingParameter, tree)
      else (Except.ok none, tree)
    | some v =>
      match parameterType with
      | none => (Except.ok (some v), tree)
      | some t =>
        if typeCheckOk t v then (Except.ok (some v), tree)
        else (Except.error ConfigError.wrongParameterType, tree)

theorem pyDictGet_eq_some (g : ParamGroup) (k : String) (v : PyVal) :
    pyDictGet g k = some v ↔ alistGet g k = some v ∧ v ≠ PyVal.vNone := by
  constructor
  · intro h
    unfold pyDictGet at h
    cases halist : alistGet g k with
    | none =>
      rw [halist] at h
      cases h
    | some w =>
      rw [halist] at h
      cases w with
      | vNone => cases h
      | vBool b =>
        cases h
        exact ⟨rfl, by simp⟩
      | vInt n =>
        cases h
        exact ⟨rfl, by simp⟩
      | vFloat u =>
        cases h
        exact ⟨rfl, by simp⟩
      | vStr s =>
        cases h
        exact ⟨rfl, by simp⟩
      | vBytes s =>
        cases h
        exact ⟨rfl, by simp⟩
      | vList u =>
        cases h
        exact ⟨rfl, by simp⟩
  · rintro ⟨ha, hnn⟩
    unfold pyDictGet
    rw [ha]
    cases v with
    | vNone => exact absurd rfl hnn
    | vBool b => rfl
    | vInt n => rfl
    | vFloat u => rfl
    | vStr s => rfl
    | vBytes s => rfl
    | vList u => rfl

/-- **C7.** For every configuration tree, group `g`, key `k` and requested
type `t`, the typed accessor called with `required=True` returns the value
stored at `D[g][k]` exactly when the group exists, the key exists with a
non-null value, and the value passes the type check for `t`; in every
other case a configuration error is raised (missing group →
`OmMissingParameterGroupError`, missing or null required key →
`OmMissingParameterError`, type mismatch → `OmWrongParameterTypeError`),
and the stored parameter tree is left unchanged by the call. -/
theorem get_param_required_characterization (tree : ParamTree)
    (group parameter : String) (t : PyType) :
    (∀ v, (get_param tree group parameter (some t) true).1
          = Except.ok (some v)
        ↔ ∃ g, alistGet tree group = some g ∧ alistGet g parameter = some v
            ∧ v ≠ PyVal.vNone ∧ typeCheckOk t v = true)
    ∧ ((get_param tree group parameter (some t) true).1 ≠ Except.ok none)
    ∧ (alistGet tree group = none →
        (get_param tree group parameter (some t) true).1
          = Except.error ConfigError.missingParameterGroup)
    ∧ (∀ g, alistGet tree group = some g → pyDictGet g parameter = none →
        (get_param tree group parameter (some t) true).1
          = Except.error ConfigError.missingParameter)
    ∧ (∀ g v, alistGet tree group = some g → pyDictGet g parameter = some v →
        typeCheckOk t v = false →
        (get_param tree group parameter (some t) true).1
          = Except.error ConfigError.wrongParameterType)
    ∧ (get_param tree group parameter (some t) true).2 = tree := by
  refine ⟨?_, ?_, ?_, ?_, ?_, ?_⟩
  · intro v
    constructor
    · intro hv
      cases hg : alistGet tree group with
      | none => simp [get_param, hg] at hv
      | some g =>
        cases hk : pyDictGet g parameter with
        | none => simp [get_param, hg, hk] at hv
        | some w =>
          by_cases ht : typeCheckOk t w
          · simp [get_param, hg, hk, ht] at hv
            obtain ⟨ha, hnn⟩ := (pyDictGet_eq_some g parameter w).mp hk
            subst hv
            exact ⟨g, rfl, ha, hnn, ht⟩
          · simp [get_param, hg, hk, ht] at hv
    · rintro ⟨g, hg, ha, hnn, ht⟩
      have hk : pyDictGet g parameter = some v :=
        (pyDictGet_eq_some g parameter v).mpr ⟨ha, hnn⟩
      simp [get_param, hg, hk, ht]
  · cases hg : alistGet tree group with
    | none => simp [get_param, hg]
    | some g =>
      cases hk : pyDictGet g parameter with
      | none => simp [get_param, hg, hk]
      | some w =>
        by_cases ht : typeCheckOk t w <;> simp [get_param, hg, hk, ht]
  · intro hg
    simp [get_param, hg]
  · intro g hg hk
    simp [get_param, hg, hk]
  · intro g v hg hk ht
    simp [get_param, hg, hk, ht]
  · cases hg : alistGet tree group with
    | none => simp [get_param, hg]
    | some g =>
      cases hk : pyDictGet g parameter with
      | none => simp [get_param, hg, hk]
      | some w =>
        by_cases ht : typeCheckOk t w <;> simp [get_param, hg, hk, ht]

/-- A concrete two-group configuration tree used to instantiate the
accessor theorems. -/
def demoTree : ParamTree :=
  [("om", [("processing_layer", PyVal.vStr "Crystallography"),
           ("parallelization_layer", PyVal.vStr "MpiParallelization")]),
   ("data_retrieval_layer", [("num_frames_in_event_to_process", PyVal.vInt 1),
                             ("fallback_detector_distance_in_mm", PyVal.vInt 250)])]

theorem get_param_required_witness :
    (get_param demoTree "data_retrieval_layer" "num_frames_in_event_to_process"
        (some PyType.pyInt) true).1 = Except.ok (some (PyVal.vInt 1)) :=
  ((get_param_required_characterization demoTree "data_retrieval_layer"
      "num_frames_in_event_to_process" PyType.pyInt).1 (PyVal.vInt 1)).mpr
    ⟨[("num_frames_in_event_to_process", PyVal.vInt 1),
      ("fallback_detector_distance_in_mm", PyVal.vInt 250)],
     by decide, by decide, by decide, by decide⟩

/-- **C10.** The typed accessor widens numeric and string type checks:
when the requested type is `float` a stored `int` passes the check and is
returned unchanged (still an `int`); when the requested type is `str` any
string-like value (`str` or `bytes`, the members of `basestring`) passes;
and for every other requested type the check is exactly `isinstance`. -/
theorem get_param_type_widening (n : Int) (s : String) :
    typeCheckOk PyType.pyFloat (PyVal.vInt n) = true
    ∧ (get_param [("g", [("k", PyVal.vInt n)])] "g" "k"
          (some PyType.pyFloat) true).1 = Except.ok (some (PyVal.vInt n))
    ∧ typeCheckOk PyType.pyStr (PyVal.vStr s) = true
    ∧ typeCheckOk PyType.pyStr (PyVal.vBytes s) = true
    ∧ (∀ (v : PyVal) (t : PyType), t ≠ PyType.pyStr → t ≠ PyType.pyFloat →
        typeCheckOk t v = isinstance v t) := by
  refine ⟨rfl, ?_, rfl, rfl, ?_⟩
  · simp [get_param, alistGet, pyDictGet, typeCheckOk, isinstance]
  · intro v t hs hf
    cases t with
    | pyStr => exact absurd rfl hs
    | pyFloat => exact absurd rfl hf
    | pyBool => rfl
    | pyInt => rfl
    | pyBytes => rfl
    | pyList => rfl

theorem get_param_type_widening_witness :
    typeCheckOk PyType.pyInt (PyVal.vInt 3)
      = isinstance (PyVal.vInt 3) PyType.pyInt :=
  (get_param_type_widening 3 "x").2.2.2.2 (PyVal.vInt 3) PyType.pyInt
    (by decide) (by decide)

/-! ### Offline psana event partitioning
(`_psana_offline_event_generator`, `data_event_handlers_psana.py`,
lines 41-61)

Each processing node computes
`num = int(numpy.ceil(len(times) / float(mpi_pool_size - 1)))` and takes
the slice `times[(node_rank - 1) * num : node_rank * num]`.  The ceiling
of the float division is modelled by exact natural-number ceiling
division. -/

/-- `int(numpy.ceil(numTimes / float(workers)))` as exact ceiling
division. -/
def numEventsCurrNode (numTimes workers : Nat) : Nat :=
  (numTimes + workers - 1) / workers

/-- Python list slice `xs[a:b]` for non-negative `a ≤ b` (clipped to the
list length). -/
def pySlice {α : Type} (xs : List α) (a b : Nat) : List α :=
  (xs.drop a).take (b - a)

/-- The events yielded to `node_rank` by the offline generator. -/
def eventsCurrNode {α : Type} (times : List α) (nodeRank mpiPoolSize : Nat) :
    List α :=
  let num := numEventsCurrNode times.length (mpiPoolSize - 1)
  pySlice times ((nodeRank - 1) * num) (nodeRank * num)

theorem le_workers_mul_ceil (T W : Nat) (hW : 0 < W) :
    T ≤ W * ((T + W - 1) / W) := by
  have hdm := Nat.div_add_mod (T + W - 1) W
  have hlt : (T + W - 1) % W < W := Nat.mod_lt _ hW
  omega

theorem flatten_chunks {α : Type} (c : Nat) (hc : 0 < c) :
    ∀ (W : Nat) (xs : List α), xs.length ≤ W * c →
      ((List.range W).map (fun i => (xs.drop (i * c)).take c)).flatten = xs := by
  intro W
  induction W with
  | zero =>
    intro xs h
    have h0 : xs = [] := List.length_eq_zero.mp (by omega)
    subst h0
    simp
  | succ W ih =>
    intro xs h
    rw [List.range_succ_eq_map, List.map_cons, List.map_map]
    have hdrop : ∀ i ∈ List.range W,
        ((fun i => (xs.drop (i * c)).take c) ∘ Nat.succ) i
          = ((xs.drop c).drop (i * c)).take c := by
      intro i _
      simp only [Function.comp_apply, Nat.succ_mul, List.drop_drop]
      congr 1
      ring
    rw [List.map_congr_left hdrop]
    have hlen : (xs.drop c).length ≤ W * c := by
      simp only [List.length_drop]
      rw [tsub_le_iff_right]
      exact h.trans (le_of_eq (by ring))
    simp only [List.flatten_cons, ih (xs.drop c) hlen, Nat.zero_mul,
      List.drop_zero]
    exact List.take_append_drop c xs

/-- **C3.** For every pool of `mpiPoolSize ≥ 2` nodes (hence ≥ 1 workers,
covering the claimed `W ≥ 2` pools) and every offline event stream, the
per-worker slices produced by the offline event generator — worker of
rank `r` receives `times[(r-1)*num : r*num]` with
`num = ceil(T / (pool - 1))` — form a partition of the full stream: their
concatenation over the worker ranks `1 .. pool-1` is the whole stream, so
no event is lost and no index appears in two workers' slices.  In
particular for a pool of 4 nodes and `T = 11` the three workers receive
4, 4 and 3 events respectively. -/
theorem psana_offline_partition {α : Type} (times : List α)
    (mpiPoolSize : Nat) (hsize : 2 ≤ mpiPoolSize) :
    ((List.range (mpiPoolSize - 1)).map
        (fun i => eventsCurrNode times (i + 1) mpiPoolSize)).flatten = times
    ∧ (List.range 3).map
        (fun i => (eventsCurrNode (List.range 11) (i + 1) 4).length)
      = [4, 4, 3] := by
  constructor
  · by_cases hT : times.length = 0
    · have h0 : times = [] := List.length_eq_zero.mp hT
      subst h0
      simp [eventsCurrNode, pySlice, numEventsCurrNode]
    · have hWpos : 0 < mpiPoolSize - 1 := by omega
      have hcpos : 0 < numEventsCurrNode times.length (mpiPoolSize - 1) := by
        unfold numEventsCurrNode
        apply Nat.div_pos
        · omega
        · omega
      have hbound : times.length
          ≤ (mpiPoolSize - 1) * numEventsCurrNode times.length (mpiPoolSize - 1) := by
        unfold numEventsCurrNode
        exact le_workers_mul_ceil times.length (mpiPoolSize - 1) hWpos
      have hmap : ∀ i ∈ List.range (mpiPoolSize - 1),
          eventsCurrNode times (i + 1) mpiPoolSize
            = (times.drop (i * numEventsCurrNode times.length (mpiPoolSize - 1))).take
                (numEventsCurrNode times.length (mpiPoolSize - 1)) := by
        intro i _
        simp only [eventsCurrNode, pySlice, Nat.add_sub_cancel, add_one_mul,
          Nat.add_sub_cancel_left]
      rw [List.map_congr_left hmap]
      exact flatten_chunks _ hcpos (mpiPoolSize - 1) times hbound
  · decide

theorem psana_offline_partition_witness :
    ((List.range 3).map
        (fun i => eventsCurrNode (List.range 11) (i + 1) 4)).flatten
      = List.range 11 :=
  (psana_offline_partition (List.range 11) 4 (by decide)).1

end OmSpec
